import Mathlib

/-!
Verification of the rating core of the `mtg_commander_leaderboard` repository.

The embedded code is `app/elo.py`: the pure rating calculator
`calculate_elo` and the persistence routine `update_elos_in_db`.

The module configures Python's `decimal` arithmetic with
`getcontext().prec = 4` (`app/elo.py` line 10), so every arithmetic
operation on `Decimal` values rounds its exact result to 4 significant
decimal digits with the default `ROUND_HALF_EVEN` rounding mode, and
`round(d, 2)` (which quantizes `d` to two fractional digits under the same
context) raises `decimal.InvalidOperation` whenever the quantized result
needs a coefficient of more than 4 digits, i.e. whenever the absolute
value of the rounded result is at least 100.00.

Every `Decimal` value is a rational number, so the embedding works over
`ℚ`: an arithmetic operation of the source becomes the exact rational
operation followed by `roundSig4`, the round-to-4-significant-digits
function, and a fallible `round(-, 2)` becomes `round2 : ℚ → Option ℚ`.
The transcendental power `Decimal(10) ** x` is the one operation that is
not rational arithmetic; it is modelled as an explicit function parameter
`pow10 : ℚ → ℚ` of the calculator, and theorems pin its (correctly
rounded) value at the finitely many exponents a given input reaches.
Separate lemmas justify the pinned values by real-number bounds on
`(10 : ℝ) ^ e`.
-/

/-- Fuel-carrying base-10 floor logarithm on `Nat`; structural recursion on
the fuel keeps it kernel-reducible. -/
def log10F : Nat → Nat → Nat
  | 0, _ => 0
  | fuel + 1, n => if n < 10 then 0 else log10F fuel (n / 10) + 1

/-- Base-10 floor logarithm of a natural number (`log10 0 = 0`). -/
def log10 (n : Nat) : Nat := log10F n n

/-- Decimal exponent of a nonzero rational: the unique `e` with
`10 ^ e ≤ |q| < 10 ^ (e + 1)`. This is the `adjusted()` exponent of the
corresponding `Decimal` value. -/
def decExp (q : ℚ) : ℤ :=
  if (10 : ℚ) ^ ((log10 q.num.natAbs : ℤ) - (log10 q.den : ℤ)) ≤ |q|
  then (log10 q.num.natAbs : ℤ) - (log10 q.den : ℤ)
  else (log10 q.num.natAbs : ℤ) - (log10 q.den : ℤ) - 1

/-- Round a rational to the nearest integer, ties to the even neighbour.
This is `decimal`'s default rounding mode `ROUND_HALF_EVEN`. -/
def rndHalfEven (x : ℚ) : ℤ :=
  if x - ⌊x⌋ < 1 / 2 then ⌊x⌋
  else if 1 / 2 < x - ⌊x⌋ then ⌊x⌋ + 1
  else if ⌊x⌋ % 2 = 0 then ⌊x⌋ else ⌊x⌋ + 1

/-- Rounding of an exact rational result to 4 significant decimal digits,
half to even: the value-level effect of every `Decimal` context operation
under `getcontext().prec = 4` (`app/elo.py` line 10). -/
def roundSig4 (q : ℚ) : ℚ :=
  if q = 0 then 0
  else (rndHalfEven (q / 10 ^ (decExp q - 3)) : ℚ) * 10 ^ (decExp q - 3)

/-- Context addition of `Decimal` values at precision 4. -/
def ctxAdd (a b : ℚ) : ℚ := roundSig4 (a + b)

/-- Context subtraction of `Decimal` values at precision 4. -/
def ctxSub (a b : ℚ) : ℚ := roundSig4 (a - b)

/-- Context multiplication of `Decimal` values at precision 4. -/
def ctxMul (a b : ℚ) : ℚ := roundSig4 (a * b)

/-- Context division of `Decimal` values at precision 4. -/
def ctxDiv (a b : ℚ) : ℚ := roundSig4 (a / b)

/-- Context unary minus of a `Decimal` value at precision 4 (Python's
unary `-` on `Decimal` is a context operation). -/
def ctxNeg (a : ℚ) : ℚ := roundSig4 (-a)

/-- Embedding of `round(x, 2)` on a `Decimal` under precision 4: quantize
to two fractional digits with `ROUND_HALF_EVEN`; `none` models the
`decimal.InvalidOperation` exception signalled when the coefficient of the
quantized result exceeds the context precision of 4 digits, i.e. when the
rounded absolute value reaches 100.00. -/
def round2 (x : ℚ) : Option ℚ :=
  if (rndHalfEven (x * 100)).natAbs < 10000
  then some ((rndHalfEven (x * 100) : ℚ) / 100) else none

/-- Container mirroring the `EloResult` dataclass of `app/elo.py`
(lines 14-20). -/
structure EloResult where
  winner_new_elo : ℚ
  losers_new_elos : List ℚ
  winner_delta : ℚ
  losers_deltas : List ℚ
deriving DecidableEq, Repr

/-- Embedding of `calculate_elo` (`app/elo.py` lines 23-66) under the
precision-4 context set at module import.

The inputs reach the function as `Decimal(str(x))`, an exact conversion
for the decimal literals and ints used by the repository, so arguments are
taken directly in `ℚ`. `pow10` stands for `Decimal(10) ** e` (theorems
constrain it at the exponents actually reached). The `none` results model
the exceptions the source raises: `ZeroDivisionError` from
`sum(...) / len(losers_elos)` on an empty loser list, and
`decimal.InvalidOperation` from any of the final `round(-, 2)` calls
(`0 ** negative` cannot arise because `Decimal(10) ** e` is positive).
Each arithmetic step is the exact operation followed by the context
rounding, exactly as the `decimal` module evaluates it; `sum` starts from
the exact integer `0` and context-adds each element in order. -/
def calculate_elo (pow10 : ℚ → ℚ) (winner_elo : ℚ) (losers_elos : List ℚ)
    (k_factor : ℚ) : Option EloResult :=
  if losers_elos.length = 0 then none
  else
    let n : ℚ := losers_elos.length
    let winner_deltas : List ℚ := losers_elos.map (fun loser_elo =>
      ctxMul k_factor (ctxSub 1
        (ctxDiv 1 (ctxAdd 1 (pow10 (ctxDiv (ctxSub loser_elo winner_elo) 400))))))
    let total_winner_delta := ctxDiv (winner_deltas.foldl ctxAdd 0) n
    let winner_new_elo := ctxAdd winner_elo total_winner_delta
    let losers_deltas := winner_deltas.map (fun d => ctxDiv (ctxNeg d) n)
    let losers_new_elos := (losers_elos.zip losers_deltas).map (fun p => ctxAdd p.1 p.2)
    match round2 winner_new_elo, losers_new_elos.mapM round2,
        round2 total_winner_delta, losers_deltas.mapM round2 with
    | some wn, some lns, some wd, some lds =>
        some { winner_new_elo := wn, losers_new_elos := lns,
               winner_delta := wd, losers_deltas := lds }
    | _, _, _, _ => none

/-- Default K-factor of `app/elo.py` line 11, `K_FACTOR = Decimal(32)`. -/
def K_FACTOR : ℚ := 32

/-!
Embedding of the persistence layer used by `update_elos_in_db`
(`app/elo.py` lines 69-138). The store is the SQLite database of
`app/db.py`: the `players` table is a list of `(id, elo)` rows and the
`game_players` table a list of `(game_id, player_id, elo_change)` rows,
both kept in table (rowid) order; the `name` and `commander_id` columns
play no role in the embedded code and are omitted. The `FLOAT` columns
and the `float(...)` conversions of the source are modelled as exact
rationals: the binary-float rounding of a 4-digit decimal is below
`2 ^ (-40)` relative error and is orthogonal to every claim considered
here.

The loser ratings are fetched with
`SELECT elo FROM players WHERE id IN :ids` bound to `tuple(loser_ids)`.
The model gives this query the semantics of its SQL text: the matching
rows in table order — which for SQLite is ascending id order, never the
order of `loser_ids`. (Stock SQLAlchemy does not treat a plain `text()`
parameter as an expanding IN-list, so at the driver level this statement
is itself fragile; the model grants the expansion the surrounding code
and the repository's tests assume, which is the reading most favourable
to the source.)

The whole body runs inside `engine.begin()`, a single transaction that
rolls back when any exception escapes, so a failing operation is
modelled as `none` with the state unchanged.
-/

/-- State of the two tables touched by `update_elos_in_db`. -/
structure DBState where
  players : List (Nat × ℚ)
  gamePlayers : List (Nat × Nat × ℚ)
deriving DecidableEq, Repr

/-- Embedding of `SELECT elo FROM players WHERE id = :id` followed by
`.scalar()`: the elo of the first matching row, if any. -/
def scalarElo (db : DBState) (pid : Nat) : Option ℚ :=
  (db.players.find? (fun p => p.1 == pid)).map (fun p => p.2)

/-- Embedding of `SELECT elo FROM players WHERE id IN :ids`: the elos of
the matching rows in table order (see the module comment above). -/
def selectElosIn (db : DBState) (ids : List Nat) : List ℚ :=
  (db.players.filter (fun p => ids.contains p.1)).map (fun p => p.2)

/-- Embedding of `UPDATE players SET elo = :elo WHERE id = :id`. -/
def setPlayerElo (ps : List (Nat × ℚ)) (pid : Nat) (v : ℚ) : List (Nat × ℚ) :=
  ps.map (fun p => if p.1 = pid then (p.1, v) else p)

/-- Embedding of `UPDATE game_players SET elo_change = :delta WHERE
game_id = :game_id AND player_id = :player_id`. -/
def setGpDelta (gps : List (Nat × Nat × ℚ)) (gid pid : Nat) (v : ℚ) :
    List (Nat × Nat × ℚ) :=
  gps.map (fun r => if r.1 = gid ∧ r.2.1 = pid then (r.1, r.2.1, v) else r)

/-- Insertion into a Python dict displayed as an insertion-ordered
association list: a later binding for an existing key silently replaces
the earlier value in place. -/
def dictInsert (m : List (Nat × ℚ)) (k : Nat) (v : ℚ) : List (Nat × ℚ) :=
  if m.any (fun e => e.1 == k) then m.map (fun e => if e.1 = k then (k, v) else e)
  else m ++ [(k, v)]

/-- Lookup in the association list representing a Python dict. -/
def dictLookup (m : List (Nat × ℚ)) (k : Nat) : Option ℚ :=
  (m.find? (fun e => e.1 == k)).map (fun e => e.2)

/-- Embedding of `update_elos_in_db` (`app/elo.py` lines 69-138); see the
persistence-layer comment above for the store model.

A missing winner row makes `.scalar()` return `None`, which
`calculate_elo` turns into a `decimal.InvalidOperation` at
`Decimal(str(None))` — modelled as `none`. Missing loser rows simply
shorten `losers_elos`; the subsequent `zip` calls of the source then
silently drop the unmatched tail of `loser_ids`. The returned Python dict
`{winner_id: ..., **{loser_id: ...}}` is built by inserting the winner
binding first and then each loser binding in order, a later duplicate key
overwriting the earlier value. -/
def update_elos_in_db (pow10 : ℚ → ℚ) (db : DBState) (game_id winner_id : Nat)
    (loser_ids : List Nat) (k_factor : ℚ) : Option (DBState × List (Nat × ℚ)) :=
  match scalarElo db winner_id with
  | none => none
  | some winner_elo =>
    let losers_elos := selectElosIn db loser_ids
    match calculate_elo pow10 winner_elo losers_elos k_factor with
    | none => none
    | some result =>
      let ps1 := setPlayerElo db.players winner_id result.winner_new_elo
      let ps2 := (loser_ids.zip result.losers_new_elos).foldl
        (fun ps p => setPlayerElo ps p.1 p.2) ps1
      let gp1 := setGpDelta db.gamePlayers game_id winner_id result.winner_delta
      let gp2 := (loser_ids.zip result.losers_deltas).foldl
        (fun gs p => setGpDelta gs game_id p.1 p.2) gp1
      let mapping := (loser_ids.zip result.losers_deltas).foldl
        (fun m p => dictInsert m p.1 p.2) [(winner_id, result.winner_delta)]
      some ({ players := ps2, gamePlayers := gp2 }, mapping)

section
attribute [local semireducible] Rat.add Rat.mul Rat.sub Rat.inv

set_option maxRecDepth 8000

/-!
Arithmetic facts about the rounding kernel: correctness of `log10` and
`decExp`, symmetry of half-even rounding under negation, and idempotence
of the 4-significant-digit context rounding. These support the claims
that quantify over arbitrary inputs.
-/

theorem log10F_spec : ∀ fuel n : ℕ, n ≤ fuel → 1 ≤ n →
    10 ^ log10F fuel n ≤ n ∧ n < 10 ^ (log10F fuel n + 1) := by
  intro fuel
  induction fuel with
  | zero => intro n hn h1; omega
  | succ fuel ih =>
    intro n hn h1
    rw [log10F]
    by_cases h : n < 10
    · simp [h]; omega
    · simp only [h, if_false]
      push_neg at h
      have hm1 : 1 ≤ n / 10 := (Nat.one_le_div_iff (by norm_num)).mpr h
      have hmf : n / 10 ≤ fuel := by
        have := Nat.div_lt_self (by omega : 0 < n) (by norm_num : 1 < 10)
        omega
      obtain ⟨hlo, hhi⟩ := ih (n / 10) hmf hm1
      constructor
      · calc 10 ^ (log10F fuel (n / 10) + 1) = 10 ^ log10F fuel (n / 10) * 10 := by ring
        _ ≤ n / 10 * 10 := by exact Nat.mul_le_mul_right 10 hlo
        _ ≤ n := by omega
      · have h2 : n < (n / 10 + 1) * 10 := by omega
        calc n < (n / 10 + 1) * 10 := h2
        _ ≤ 10 ^ (log10F fuel (n / 10) + 1) * 10 := by
              exact Nat.mul_le_mul_right 10 (by omega)
        _ = 10 ^ (log10F fuel (n / 10) + 1 + 1) := by ring

theorem log10_spec (n : ℕ) (h : 1 ≤ n) :
    10 ^ log10 n ≤ n ∧ n < 10 ^ (log10 n + 1) :=
  log10F_spec n n le_rfl h

theorem rndHalfEven_intCast (z : ℤ) : rndHalfEven (z : ℚ) = z := by
  unfold rndHalfEven
  simp [Int.floor_intCast]

theorem rndHalfEven_le (x : ℚ) : (rndHalfEven x : ℚ) ≤ x + 1 / 2 := by
  unfold rndHalfEven
  have h1 := Int.floor_le x
  have h2 := Int.lt_floor_add_one x
  split
  · linarith
  · split
    · push_cast; linarith
    · split
      · linarith
      · push_cast
        rename_i hlt _ _
        push_neg at hlt
        linarith

theorem le_rndHalfEven (x : ℚ) : x - 1 / 2 ≤ (rndHalfEven x : ℚ) := by
  unfold rndHalfEven
  have h1 := Int.floor_le x
  have h2 := Int.lt_floor_add_one x
  split
  · rename_i hlt; linarith
  · split
    · push_cast; linarith
    · split
      · rename_i hlt hgt _
        push_neg at hlt hgt
        linarith
      · push_cast; rename_i hlt _ _
        push_neg at hlt
        linarith

theorem rndHalfEven_neg (x : ℚ) : rndHalfEven (-x) = -rndHalfEven x := by
  by_cases hx : x = (⌊x⌋ : ℚ)
  · rw [hx, ← Int.cast_neg, rndHalfEven_intCast, rndHalfEven_intCast]
  · have hfl : (⌊x⌋ : ℚ) < x := lt_of_le_of_ne (Int.floor_le x) fun h => hx h.symm
    have hfu : x < ⌊x⌋ + 1 := Int.lt_floor_add_one x
    have hnegfloor : ⌊-x⌋ = -⌊x⌋ - 1 := by
      rw [Int.floor_eq_iff]
      constructor
      · push_cast
        linarith
      · push_cast
        linarith
    unfold rndHalfEven
    rw [hnegfloor]
    have e1 : -x - ((-⌊x⌋ - 1 : ℤ) : ℚ) = 1 - (x - ⌊x⌋) := by push_cast; ring
    rw [e1]
    rcases lt_trichotomy (x - ⌊x⌋) (1 / 2) with hc | hc | hc
    · rw [if_pos hc, if_neg (by linarith : ¬(1 - (x - (⌊x⌋ : ℚ)) < 1 / 2)),
        if_pos (by linarith : (1 / 2 : ℚ) < 1 - (x - ⌊x⌋))]
      ring
    · rw [if_neg (by rw [hc]; norm_num : ¬(1 - (x - (⌊x⌋ : ℚ)) < 1 / 2)),
        if_neg (by rw [hc]; norm_num : ¬((1 / 2 : ℚ) < 1 - (x - ⌊x⌋))),
        if_neg (by rw [hc]; norm_num : ¬(x - (⌊x⌋ : ℚ) < 1 / 2)),
        if_neg (by rw [hc]; norm_num : ¬((1 / 2 : ℚ) < x - (⌊x⌋ : ℚ)))]
      rcases Int.emod_two_eq_zero_or_one ⌊x⌋ with h | h
      · rw [if_pos h, if_neg (by omega : ¬((-⌊x⌋ - 1) % 2 = 0))]
        ring
      · rw [if_neg (by omega : ¬(⌊x⌋ % 2 = 0)), if_pos (by omega : (-⌊x⌋ - 1) % 2 = 0)]
        ring
    · rw [if_neg (by linarith : ¬(x - (⌊x⌋ : ℚ) < 1 / 2)),
        if_pos hc, if_pos (by linarith : 1 - (x - (⌊x⌋ : ℚ)) < 1 / 2)]
      ring

theorem abs_eq_natAbs_div_den (q : ℚ) : |q| = (q.num.natAbs : ℚ) / (q.den : ℚ) := by
  conv_lhs => rw [← Rat.num_div_den q]
  rw [abs_div]
  congr 1
  · rw [Int.cast_natAbs, Int.cast_abs]
  · exact abs_of_pos (by positivity)

theorem decExp_spec (q : ℚ) (hq : q ≠ 0) :
    (10 : ℚ) ^ decExp q ≤ |q| ∧ |q| < (10 : ℚ) ^ (decExp q + 1) := by
  have hN : 1 ≤ q.num.natAbs := Int.natAbs_pos.mpr (Rat.num_ne_zero.mpr hq)
  have hD : 1 ≤ q.den := q.pos
  obtain ⟨hNlo, hNhi⟩ := log10_spec _ hN
  obtain ⟨hDlo, hDhi⟩ := log10_spec _ hD
  have hNloQ : (10 : ℚ) ^ (log10 q.num.natAbs) ≤ (q.num.natAbs : ℚ) := by
    exact_mod_cast Nat.cast_le.mpr hNlo
  have hNhiQ : (q.num.natAbs : ℚ) < (10 : ℚ) ^ (log10 q.num.natAbs + 1) := by
    exact_mod_cast Nat.cast_lt.mpr hNhi
  have hDloQ : (10 : ℚ) ^ (log10 q.den) ≤ (q.den : ℚ) := by
    exact_mod_cast Nat.cast_le.mpr hDlo
  have hDhiQ : (q.den : ℚ) < (10 : ℚ) ^ (log10 q.den + 1) := by
    exact_mod_cast Nat.cast_lt.mpr hDhi
  have hDpos : (0 : ℚ) < (q.den : ℚ) := by positivity
  have hNpos : (0 : ℚ) < (q.num.natAbs : ℚ) := by exact_mod_cast hN
  have habs : |q| = (q.num.natAbs : ℚ) / (q.den : ℚ) := abs_eq_natAbs_div_den q
  unfold decExp
  split
  · rename_i hcond
    refine ⟨hcond, ?_⟩
    have step1 : |q| ≤ (q.num.natAbs : ℚ) / (10 : ℚ) ^ (log10 q.den) := by
      rw [habs]
      gcongr
    have step2 : (q.num.natAbs : ℚ) / (10 : ℚ) ^ (log10 q.den) <
        (10 : ℚ) ^ (log10 q.num.natAbs + 1) / (10 : ℚ) ^ (log10 q.den) := by
      gcongr
    have step3 : (10 : ℚ) ^ (log10 q.num.natAbs + 1) / (10 : ℚ) ^ (log10 q.den) =
        (10 : ℚ) ^ ((log10 q.num.natAbs : ℤ) - (log10 q.den : ℤ) + 1) := by
      rw [← zpow_natCast (10 : ℚ) (log10 q.num.natAbs + 1),
        ← zpow_natCast (10 : ℚ) (log10 q.den), ← zpow_sub₀ (by norm_num : (10 : ℚ) ≠ 0)]
      congr 1
      push_cast
      ring
    calc |q| ≤ (q.num.natAbs : ℚ) / (10 : ℚ) ^ (log10 q.den) := step1
      _ < (10 : ℚ) ^ (log10 q.num.natAbs + 1) / (10 : ℚ) ^ (log10 q.den) := step2
      _ = (10 : ℚ) ^ ((log10 q.num.natAbs : ℤ) - (log10 q.den : ℤ) + 1) := step3
  · rename_i hcond
    push_neg at hcond
    constructor
    · have step1 : (10 : ℚ) ^ ((log10 q.num.natAbs : ℤ) - (log10 q.den : ℤ) - 1) =
          (10 : ℚ) ^ (log10 q.num.natAbs) / (10 : ℚ) ^ (log10 q.den + 1) := by
        rw [← zpow_natCast (10 : ℚ) (log10 q.num.natAbs),
          ← zpow_natCast (10 : ℚ) (log10 q.den + 1),
          ← zpow_sub₀ (by norm_num : (10 : ℚ) ≠ 0)]
        congr 1
        push_cast
        ring
      rw [step1, habs]
      have step2 : (10 : ℚ) ^ (log10 q.num.natAbs) / (10 : ℚ) ^ (log10 q.den + 1) ≤
          (q.num.natAbs : ℚ) / (10 : ℚ) ^ (log10 q.den + 1) := by
        gcongr
      have step3 : (q.num.natAbs : ℚ) / (10 : ℚ) ^ (log10 q.den + 1) ≤
          (q.num.natAbs : ℚ) / (q.den : ℚ) := by
        gcongr
      linarith
    · have : (10 : ℚ) ^ ((log10 q.num.natAbs : ℤ) - (log10 q.den : ℤ) - 1 + 1) =
          (10 : ℚ) ^ ((log10 q.num.natAbs : ℤ) - (log10 q.den : ℤ)) := by
        congr 1
        ring
      rw [this]
      exact hcond

theorem decExp_unique (q : ℚ) (hq : q ≠ 0) (e : ℤ)
    (h1 : (10 : ℚ) ^ e ≤ |q|) (h2 : |q| < (10 : ℚ) ^ (e + 1)) : decExp q = e := by
  obtain ⟨hlo, hhi⟩ := decExp_spec q hq
  by_contra hne
  rcases lt_or_gt_of_ne hne with hlt | hgt
  · have : (10 : ℚ) ^ (decExp q + 1) ≤ (10 : ℚ) ^ e :=
      zpow_le_zpow_right₀ (by norm_num) (by omega)
    linarith
  · have : (10 : ℚ) ^ (e + 1) ≤ (10 : ℚ) ^ (decExp q) :=
      zpow_le_zpow_right₀ (by norm_num) (by omega)
    linarith

theorem decExp_neg (q : ℚ) : decExp (-q) = decExp q := by
  unfold decExp
  rw [Rat.neg_num, Rat.neg_den, Int.natAbs_neg, abs_neg]

theorem roundSig4_neg (q : ℚ) : roundSig4 (-q) = -roundSig4 q := by
  by_cases hq : q = 0
  · simp [roundSig4, hq]
  · have hnq : -q ≠ 0 := neg_ne_zero.mpr hq
    unfold roundSig4
    rw [if_neg hq, if_neg hnq, decExp_neg, neg_div, rndHalfEven_neg]
    push_cast
    ring

theorem roundSig4_eq_self_of_rep (m k : ℤ) (hm : m.natAbs ≤ 9999) :
    roundSig4 ((m : ℚ) * 10 ^ k) = (m : ℚ) * 10 ^ k := by
  by_cases hm0 : m = 0
  · simp [roundSig4, hm0]
  · have hx0 : (m : ℚ) * 10 ^ k ≠ 0 := by
      apply mul_ne_zero
      · exact_mod_cast hm0
      · exact zpow_ne_zero k (by norm_num)
    have hNpos : 1 ≤ m.natAbs := Int.natAbs_pos.mpr hm0
    obtain ⟨hjlo, hjhi⟩ := log10_spec m.natAbs hNpos
    have hj3 : log10 m.natAbs ≤ 3 := by
      by_contra hj
      push_neg at hj
      have : 10 ^ 4 ≤ 10 ^ log10 m.natAbs := Nat.pow_le_pow_right (by norm_num) hj
      omega
    have habsm : |(m : ℚ)| = (m.natAbs : ℚ) := by
      rw [Int.cast_natAbs, Int.cast_abs]
    have hupos : (0 : ℚ) < 10 ^ k := by positivity
    have habs : |(m : ℚ) * 10 ^ k| = (m.natAbs : ℚ) * 10 ^ k := by
      rw [abs_mul, habsm, abs_of_pos hupos]
    have hmloQ : (10 : ℚ) ^ (log10 m.natAbs) ≤ (m.natAbs : ℚ) := by
      exact_mod_cast Nat.cast_le.mpr hjlo
    have hmhiQ : (m.natAbs : ℚ) < (10 : ℚ) ^ (log10 m.natAbs + 1) := by
      exact_mod_cast Nat.cast_lt.mpr hjhi
    have hde : decExp ((m : ℚ) * 10 ^ k) = (log10 m.natAbs : ℤ) + k := by
      apply decExp_unique _ hx0
      · rw [habs, zpow_add₀ (by norm_num : (10 : ℚ) ≠ 0), zpow_natCast]
        exact mul_le_mul_of_nonneg_right hmloQ hupos.le
      · rw [habs]
        have : ((log10 m.natAbs : ℤ) + k + 1) = ((log10 m.natAbs + 1 : ℕ) : ℤ) + k := by
          push_cast
          ring
        rw [this, zpow_add₀ (by norm_num : (10 : ℚ) ≠ 0), zpow_natCast]
        exact mul_lt_mul_of_pos_right hmhiQ hupos
    unfold roundSig4
    rw [if_neg hx0, hde]
    have hdiv : (m : ℚ) * 10 ^ k / 10 ^ ((log10 m.natAbs : ℤ) + k - 3) =
        ((m * 10 ^ (3 - log10 m.natAbs) : ℤ) : ℚ) := by
      push_cast
      rw [div_eq_iff (zpow_ne_zero _ (by norm_num : (10 : ℚ) ≠ 0))]
      rw [mul_assoc]
      congr 1
      rw [← zpow_natCast (10 : ℚ) (3 - log10 m.natAbs),
        ← zpow_add₀ (by norm_num : (10 : ℚ) ≠ 0)]
      congr 1
      omega
    rw [hdiv, rndHalfEven_intCast]
    push_cast
    rw [mul_assoc]
    congr 1
    rw [← zpow_natCast (10 : ℚ) (3 - log10 m.natAbs),
      ← zpow_add₀ (by norm_num : (10 : ℚ) ≠ 0)]
    congr 1
    omega

theorem roundSig4_rep (q : ℚ) :
    ∃ m k : ℤ, m.natAbs ≤ 9999 ∧ roundSig4 q = (m : ℚ) * 10 ^ k := by
  by_cases hq : q = 0
  · exact ⟨0, 0, by norm_num, by simp [roundSig4, hq]⟩
  · obtain ⟨hlo, hhi⟩ := decExp_spec q hq
    have hupos : (0 : ℚ) < 10 ^ (decExp q - 3) := by positivity
    have h1 : |q / 10 ^ (decExp q - 3)| < 10 ^ 4 := by
      rw [abs_div, abs_of_pos hupos, div_lt_iff₀ hupos]
      calc |q| < (10 : ℚ) ^ (decExp q + 1) := hhi
        _ = 10 ^ 4 * 10 ^ (decExp q - 3) := by
            rw [← zpow_natCast (10 : ℚ) 4, ← zpow_add₀ (by norm_num : (10 : ℚ) ≠ 0)]
            congr 1
            omega
    rw [abs_lt] at h1
    obtain ⟨h1a, h1b⟩ := h1
    norm_num at h1a h1b
    have h2 := rndHalfEven_le (q / 10 ^ (decExp q - 3))
    have h3 := le_rndHalfEven (q / 10 ^ (decExp q - 3))
    have hup : (rndHalfEven (q / 10 ^ (decExp q - 3)) : ℚ) < 10001 := by linarith
    have hdown : (-10001 : ℚ) < (rndHalfEven (q / 10 ^ (decExp q - 3)) : ℚ) := by linarith
    have hupZ : rndHalfEven (q / 10 ^ (decExp q - 3)) < 10001 := by exact_mod_cast hup
    have hdownZ : (-10001 : ℤ) < rndHalfEven (q / 10 ^ (decExp q - 3)) := by
      exact_mod_cast hdown
    have hboundZ : (rndHalfEven (q / 10 ^ (decExp q - 3))).natAbs ≤ 10000 := by omega
    have hval : roundSig4 q =
        (rndHalfEven (q / 10 ^ (decExp q - 3)) : ℚ) * 10 ^ (decExp q - 3) := by
      unfold roundSig4
      rw [if_neg hq]
    rcases Nat.lt_or_ge (rndHalfEven (q / 10 ^ (decExp q - 3))).natAbs 10000 with hc | hc
    · exact ⟨rndHalfEven (q / 10 ^ (decExp q - 3)), decExp q - 3, by omega, hval⟩
    · have heq : (rndHalfEven (q / 10 ^ (decExp q - 3))).natAbs = 10000 := le_antisymm hboundZ hc
      rcases Int.natAbs_eq (rndHalfEven (q / 10 ^ (decExp q - 3))) with hsgn | hsgn
      · refine ⟨1000, decExp q - 2, by norm_num, ?_⟩
        rw [hval, hsgn, heq]
        have hsplit : (10 : ℚ) ^ (decExp q - 2) = 10 ^ (decExp q - 3) * 10 := by
          rw [← zpow_add_one₀ (by norm_num : (10 : ℚ) ≠ 0)]
          congr 1
          omega
        rw [hsplit]
        push_cast
        ring
      · refine ⟨-1000, decExp q - 2, by norm_num, ?_⟩
        rw [hval, hsgn, heq]
        have hsplit : (10 : ℚ) ^ (decExp q - 2) = 10 ^ (decExp q - 3) * 10 := by
          rw [← zpow_add_one₀ (by norm_num : (10 : ℚ) ≠ 0)]
          congr 1
          omega
        rw [hsplit]
        push_cast
        ring

theorem roundSig4_idem (q : ℚ) : roundSig4 (roundSig4 q) = roundSig4 q := by
  obtain ⟨m, k, hm, hq⟩ := roundSig4_rep q
  rw [hq, roundSig4_eq_self_of_rep m k hm]

theorem round2_neg (x : ℚ) : round2 (-x) = (round2 x).map (fun y => -y) := by
  unfold round2
  have h : -x * 100 = -(x * 100) := by ring
  rw [h, rndHalfEven_neg, Int.natAbs_neg]
  split
  · simp only [Option.map_some']
    congr 1
    push_cast
    ring
  · rfl

theorem calculate_elo_congr (pow10 pow10A : ℚ → ℚ) (w : ℚ) (losers : List ℚ) (k : ℚ)
    (h : ∀ le ∈ losers,
      pow10 (ctxDiv (ctxSub le w) 400) = pow10A (ctxDiv (ctxSub le w) 400)) :
    calculate_elo pow10 w losers k = calculate_elo pow10A w losers k := by
  unfold calculate_elo
  have hmap : losers.map (fun loser_elo =>
      ctxMul k (ctxSub 1
        (ctxDiv 1 (ctxAdd 1 (pow10 (ctxDiv (ctxSub loser_elo w) 400)))))) =
      losers.map (fun loser_elo =>
      ctxMul k (ctxSub 1
        (ctxDiv 1 (ctxAdd 1 (pow10A (ctxDiv (ctxSub loser_elo w) 400)))))) := by
    apply List.map_congr_left
    intro le hle
    rw [h le hle]
  rw [hmap]

/-- Claim C1, amended: zero-sum after rounding does not hold for every
valid input (see `claim_C1_zero_sum_cex`), but it does hold whenever
`calculate_elo` returns a result for a single-loser game: the returned
`winner_delta` plus the sum of the returned `losers_deltas` is exactly 0.
The hypothesis on `pow10` records that `Decimal(10) ** e` is always
positive, which is true of the source's power operation. -/
theorem claim_C1_zero_sum_single_loser (pow10 : ℚ → ℚ)
    (_hpow_pos : ∀ q, 0 < pow10 q) (w l k : ℚ) (r : EloResult)
    (h : calculate_elo pow10 w [l] k = some r) :
    r.winner_delta + r.losers_deltas.sum = 0 := by
  unfold calculate_elo at h
  rw [if_neg (by simp)] at h
  simp only [List.map_cons, List.map_nil, List.length_cons, List.length_nil,
    zero_add, Nat.cast_one, List.foldl_cons, List.foldl_nil, List.zip_cons_cons,
    List.zip_nil_right, List.mapM_cons, List.mapM_nil] at h
  set d := ctxMul k (ctxSub 1 (ctxDiv 1 (ctxAdd 1 (pow10 (ctxDiv (ctxSub l w) 400)))))
    with hd_def
  have himg : roundSig4 d = d := by
    rw [hd_def]
    exact roundSig4_idem _
  have h1 : ctxAdd 0 d = d := by
    unfold ctxAdd
    rw [zero_add]
    exact himg
  have h2 : ctxDiv d 1 = d := by
    unfold ctxDiv
    rw [div_one]
    exact himg
  have h3 : ctxNeg d = -d := by
    unfold ctxNeg
    rw [roundSig4_neg, himg]
  have h4 : ctxDiv (-d) 1 = -d := by
    unfold ctxDiv
    rw [div_one, roundSig4_neg, himg]
  rw [h1, h2, h3, h4] at h
  rcases hA : round2 (ctxAdd w d) with _ | wn <;> rw [hA] at h
  · exact Option.noConfusion h
  rcases hB : round2 (ctxAdd l (-d)) with _ | ln <;> rw [hB] at h
  · exact Option.noConfusion h
  rcases hC : round2 d with _ | wd <;> rw [hC] at h
  · exact Option.noConfusion h
  rcases hD : round2 (-d) with _ | ld <;> rw [hD] at h
  · exact Option.noConfusion h
  have hr := Option.some.inj h
  rw [← hr]
  have hneg : round2 (-d) = some (-wd) := by simp [round2_neg, hC]
  rw [hD] at hneg
  have hld := Option.some.inj hneg
  rw [hld]
  simp only [List.sum_cons, List.sum_nil, add_zero]
  ring



/-- Witness for `claim_C1_zero_sum_single_loser`: at
`calculate_elo (fun _ => 1) 0 [0] 32 = some ⟨16, [-16], 16, [-16]⟩`
(a start-rating-0 game, where the only exponent reached is 0 and
`Decimal(10) ** 0 = 1`), the deltas sum to zero. -/
theorem claim_C1_zero_sum_single_loser_witness :
    (⟨16, [-16], 16, [-16]⟩ : EloResult).winner_delta +
      (⟨16, [-16], 16, [-16]⟩ : EloResult).losers_deltas.sum = 0 :=
  claim_C1_zero_sum_single_loser (fun _ => 1) (fun _ => one_pos) 0 0 32
    ⟨16, [-16], 16, [-16]⟩ (by decide)

/-- Claim C1, counterexample: `calculate_elo` at winner rating 0 against
three losers of rating 0 (default K factor 32; the only exponent reached
is 0, where `Decimal(10) ** 0 = 1`) returns `winner_delta = 16.00` and
three loser deltas of `-5.33` — their sum is `0.01`, not the `0.00` the
claim demands for every valid input. -/
theorem claim_C1_zero_sum_cex :
    (calculate_elo (fun _ => 1) 0 [0, 0, 0] 32).map
      (fun r => r.winner_delta + r.losers_deltas.sum) = some (1 / 100) ∧
    (1 / 100 : ℚ) ≠ 0 :=
  ⟨by decide, by norm_num⟩


/-- Claim C2: pairing of results to players. The claim fails on the code:
`update_elos_in_db` zips `loser_ids` against the rows of
`SELECT ... WHERE id IN ...`, which arrive in table order, not in
`loser_ids` order. Start from players 1 (elo 50, the winner), 2 (elo 50)
and 3 (elo -50) and call with `loser_ids = [3, 2]` (exponents reached:
0 and `-1/4`; `Decimal(10) ** Decimal(str(-0.25))` is `0.5623`, justified
by `pow10_at_neg_quarter`). Player 3, whose participant row records the
delta `-8.00`, ends with stored rating `42.00` — the new rating computed
from player 2's rating 50 — instead of `-50 + (-8) = -58`, so a loser's
persisted rating is not its own previous rating plus its own delta. -/
theorem claim_C2_pairing_cex :
    update_elos_in_db (fun q => if q = -1/4 then 5623/10000 else 1)
      ⟨[(1, 50), (2, 50), (3, -50)], [(1, 1, 0), (1, 2, 0), (1, 3, 0)]⟩ 1 1 [3, 2] 32 =
      some (⟨[(1, 1594/25), (2, -1394/25), (3, 42)],
             [(1, 1, 344/25), (1, 2, -144/25), (1, 3, -8)]⟩,
            [(1, 344/25), (3, -8), (2, -144/25)]) ∧
    (42 : ℚ) ≠ -50 + -8 :=
  ⟨by decide, by norm_num⟩

/-- Claim C3: validation of `apply_match_result` preconditions. The claim
fails on the code: `update_elos_in_db` never checks its ids. With players
1 and 2 at rating 0 and the call `loser_ids = [2, 99]` (99 unknown), the
`SELECT ... IN` simply returns one row, `zip` drops the unmatched tail,
and the call succeeds: player 2's stored rating is overwritten with
`-16.00` (it was 0 before the call) and a mapping is returned — no
input-validation error, and writes are performed. -/
theorem claim_C3_no_validation_cex :
    update_elos_in_db (fun _ => 1)
      ⟨[(1, 0), (2, 0)], [(1, 1, 0), (1, 2, 0)]⟩ 1 1 [2, 99] 32 =
      some (⟨[(1, 16), (2, -16)], [(1, 1, 16), (1, 2, -16)]⟩,
            [(1, 16), (2, -16)]) ∧
    (-16 : ℚ) ≠ 0 :=
  ⟨by decide, by norm_num⟩

/-- Claim C10: winner listed among the losers. With players 1 and 2 at
rating 0 and the call `winner_id = 1`, `loser_ids = [1, 2]`, the
operation does not fail: `calculate_elo 0 [0, 0]` yields
`winner_delta = 16.00` and loser deltas `-8.00`, the returned dict holds
a single entry for player 1 whose value is the loser delta `-8.00` (the
winner binding is silently overwritten), and player 1's stored rating is
`-8.00` — the value of the loser-loop `UPDATE`, which executes after the
winner `UPDATE` (whose value would have been `16.00`). -/
theorem claim_C10_winner_among_losers :
    update_elos_in_db (fun _ => 1)
      ⟨[(1, 0), (2, 0)], [(1, 1, 0), (1, 2, 0)]⟩ 1 1 [1, 2] 32 =
      some (⟨[(1, -8), (2, -8)], [(1, 1, -8), (1, 2, -8)]⟩,
            [(1, -8), (2, -8)]) ∧
    dictLookup [(1, -8), (2, -8)] 1 = some (-8) ∧
    (calculate_elo (fun _ => 1) 0 [0, 0] 32).map
      (fun r => (r.winner_delta, r.winner_new_elo, r.losers_new_elos)) =
      some (16, 16, [-8, -8]) ∧
    (-8 : ℚ) ≠ 16 :=
  ⟨by decide, by decide, by decide, by norm_num⟩


/-- Claim C4: the precision scenario. The claim (and the repository's own
test `test_elo_precision`) expects
`calculate(1234.56, [987.65, 1056.78])` to return `1238.29`; instead the
call raises `decimal.InvalidOperation`: with the context precision of 4
significant digits, the final `round(winner_new_elo, 2)` cannot quantize
a value near 1242 to two decimals. The hypotheses pin
`Decimal(10) ** e` at the two exponents reached, `-0.6172` and `-0.4445`
(values justified by `pow10_at_neg_6172` and `pow10_at_neg_4445`); the
crash happens for these — indeed for any nonnegative — power values. -/
theorem claim_C4_precision_scenario_raises (pow10 : ℚ → ℚ)
    (h1 : pow10 (-1543/2500) = 1207/5000) (h2 : pow10 (-889/2000) = 3593/10000) :
    calculate_elo pow10 (123456/100) [98765/100, 105678/100] 32 = none := by
  have hcongr := calculate_elo_congr pow10
      (fun q => if q = -1543/2500 then (1207/5000 : ℚ) else 3593/10000)
      (123456/100) [98765/100, 105678/100] 32 (by
    intro le hle
    fin_cases hle
    · rw [show ctxDiv (ctxSub (98765/100 : ℚ) (123456/100)) 400 = -1543/2500 from
        by decide, h1]
      decide
    · rw [show ctxDiv (ctxSub (105678/100 : ℚ) (123456/100)) 400 = -889/2000 from
        by decide, h2]
      decide)
  rw [hcongr]
  decide

/-- Witness for `claim_C4_precision_scenario_raises`, instantiating the
power parameter with the pinned table. -/
theorem claim_C4_precision_scenario_raises_witness :
    calculate_elo (fun q => if q = -1543/2500 then (1207/5000 : ℚ) else 3593/10000)
      (123456/100) [98765/100, 105678/100] 32 = none :=
  claim_C4_precision_scenario_raises
    (fun q => if q = -1543/2500 then (1207/5000 : ℚ) else 3593/10000)
    (by decide) (by decide)

/-- Claim C5: multi-loser averaging. The claim (and the repository's test
`test_calculate_elo_multiplayer`) expects
`calculate(1000, [1000, 1000])` to return `winner_delta = 16.00` and
loser deltas `-8.00`; instead the call raises
`decimal.InvalidOperation`: the final `round(Decimal(1016), 2)` cannot
quantize to two decimals under the 4-digit context. The only exponent
reached is 0, where `Decimal(10) ** 0 = 1`. -/
theorem claim_C5_multi_loser_raises (pow10 : ℚ → ℚ) (hpow : pow10 0 = 1) :
    calculate_elo pow10 1000 [1000, 1000] 32 = none := by
  have hcongr := calculate_elo_congr pow10 (fun _ => 1) 1000 [1000, 1000] 32 (by
    intro le hle
    fin_cases hle <;>
      rw [show ctxDiv (ctxSub (1000 : ℚ) 1000) 400 = 0 from by decide, hpow])
  rw [hcongr]
  decide

/-- Witness for `claim_C5_multi_loser_raises`. -/
theorem claim_C5_multi_loser_raises_witness :
    calculate_elo (fun _ => 1) 1000 [1000, 1000] 32 = none :=
  claim_C5_multi_loser_raises (fun _ => 1) rfl

/-- Claim C6: rating-gap sensitivity. The claim (and the repository's
test `test_calculate_elo_2player`) expects `calculate(1200, [1000])` to
return `winner_delta = 3.20`; instead the call raises
`decimal.InvalidOperation` at the final `round(-, 2)` under the 4-digit
context. The exponent reached is `-0.5`, where `Decimal(10) ** e` is
`0.3162` (justified by `pow10_at_neg_half`). Incidentally, even with
full precision the algorithm returns `7.69` at this input, not `3.20`. -/
theorem claim_C6_rating_gap_raises (pow10 : ℚ → ℚ)
    (hpow : pow10 (-1/2) = 1581/5000) :
    calculate_elo pow10 1200 [1000] 32 = none := by
  have hcongr := calculate_elo_congr pow10 (fun _ => (1581/5000 : ℚ)) 1200 [1000] 32 (by
    intro le hle
    fin_cases hle
    rw [show ctxDiv (ctxSub (1000 : ℚ) 1200) 400 = -1/2 from by decide, hpow])
  rw [hcongr]
  decide

/-- Witness for `claim_C6_rating_gap_raises`. -/
theorem claim_C6_rating_gap_raises_witness :
    calculate_elo (fun _ => (1581/5000 : ℚ)) 1200 [1000] 32 = none :=
  claim_C6_rating_gap_raises (fun _ => (1581/5000 : ℚ)) rfl

/-- Claim C7: K-factor linearity at 1000 vs [1000]. The claim (and the
repository's test `test_k_factor_variation`) expects `winner_delta` of
`8.00`, `16.00` and `20.00` for K = 16, 32 and 40; instead all three
calls raise `decimal.InvalidOperation` at the final `round(-, 2)` under
the 4-digit context (the new rating near 1000 cannot be quantized to
two decimals), so no delta is returned at all. The only exponent reached
is 0, where `Decimal(10) ** 0 = 1`. -/
theorem claim_C7_k_factor_raises (pow10 : ℚ → ℚ) (hpow : pow10 0 = 1) :
    calculate_elo pow10 1000 [1000] 16 = none ∧
    calculate_elo pow10 1000 [1000] 32 = none ∧
    calculate_elo pow10 1000 [1000] 40 = none := by
  refine ⟨?_, ?_, ?_⟩ <;>
  · rw [calculate_elo_congr pow10 (fun _ => 1) 1000 [1000] _ (by
      intro le hle
      fin_cases hle
      rw [show ctxDiv (ctxSub (1000 : ℚ) 1000) 400 = 0 from by decide, hpow])]
    decide

/-- Witness for `claim_C7_k_factor_raises`. -/
theorem claim_C7_k_factor_raises_witness :
    calculate_elo (fun _ => 1) 1000 [1000] 16 = none ∧
    calculate_elo (fun _ => 1) 1000 [1000] 32 = none ∧
    calculate_elo (fun _ => 1) 1000 [1000] 40 = none :=
  claim_C7_k_factor_raises (fun _ => 1) rfl

/-- Claim C8: the 2-decimal rounding of `calculate_elo` is round half to
even. At winner 0 against loser 0 the unrounded delta is `k / 2`; with
`k = 0.25` the delta `0.125` rounds to `0.12` (`= 3/25`), and with
`k = 1.25` the delta `0.625` rounds to `0.62` (`= 31/50`) — both ties go
to the even neighbour, where round half away from zero would give `0.13`
and `0.63`. The only exponent reached is 0, where `Decimal(10) ** 0 = 1`. -/
theorem claim_C8_round_half_even (pow10 : ℚ → ℚ) (hpow : pow10 0 = 1) :
    calculate_elo pow10 0 [0] (1/4) =
      some ⟨3/25, [-3/25], 3/25, [-3/25]⟩ ∧
    calculate_elo pow10 0 [0] (5/4) =
      some ⟨31/50, [-31/50], 31/50, [-31/50]⟩ ∧
    (3/25 : ℚ) ≠ 13/100 ∧ (31/50 : ℚ) ≠ 63/100 := by
  have hcongr : ∀ k : ℚ, calculate_elo pow10 0 [0] k = calculate_elo (fun _ => 1) 0 [0] k := by
    intro k
    exact calculate_elo_congr pow10 (fun _ => 1) 0 [0] k (by
      intro le hle
      fin_cases hle
      rw [show ctxDiv (ctxSub (0 : ℚ) 0) 400 = 0 from by decide, hpow])
  refine ⟨?_, ?_, by norm_num, by norm_num⟩ <;>
  · rw [hcongr]
    decide

/-- Witness for `claim_C8_round_half_even`. -/
theorem claim_C8_round_half_even_witness :
    calculate_elo (fun _ => 1) 0 [0] (1/4) =
      some ⟨3/25, [-3/25], 3/25, [-3/25]⟩ ∧
    calculate_elo (fun _ => 1) 0 [0] (5/4) =
      some ⟨31/50, [-31/50], 31/50, [-31/50]⟩ ∧
    (3/25 : ℚ) ≠ 13/100 ∧ (31/50 : ℚ) ≠ 63/100 :=
  claim_C8_round_half_even (fun _ => 1) rfl

/-- Claim C9: the new ratings and the deltas are rounded independently.
At winner `0.01` against loser `0.01` with `k = 0.25`, the function
returns `winner_new_elo = 0.14` (`round2(0.01 + 0.125) = round2(0.135)`,
a tie going up to the even `0.14`) but `winner_delta = 0.12`
(`round2(0.125)`, a tie going down to the even `0.12`), so
`winner_new_elo ≠ winner_elo + winner_delta`: a caller reconstructing
the new rating from the old rating plus the returned delta gets `0.13`.
The only exponent reached is 0, where `Decimal(10) ** 0 = 1`. -/
theorem claim_C9_independent_rounding (pow10 : ℚ → ℚ) (hpow : pow10 0 = 1) :
    calculate_elo pow10 (1/100) [1/100] (1/4) =
      some ⟨7/50, [-3/25], 3/25, [-3/25]⟩ ∧
    (7/50 : ℚ) ≠ 1/100 + 3/25 := by
  refine ⟨?_, by norm_num⟩
  rw [calculate_elo_congr pow10 (fun _ => 1) (1/100) [1/100] (1/4) (by
    intro le hle
    fin_cases hle
    rw [show ctxDiv (ctxSub (1/100 : ℚ) (1/100)) 400 = 0 from by decide, hpow])]
  decide

/-- Witness for `claim_C9_independent_rounding`. -/
theorem claim_C9_independent_rounding_witness :
    calculate_elo (fun _ => 1) (1/100) [1/100] (1/4) =
      some ⟨7/50, [-3/25], 3/25, [-3/25]⟩ ∧
    (7/50 : ℚ) ≠ 1/100 + 3/25 :=
  claim_C9_independent_rounding (fun _ => 1) rfl


/-!
Justification of the pinned `Decimal(10) ** e` values used by the claim
theorems. `Decimal` computes the power to high internal precision and
rounds to the 4 significant digits of the context; the lemmas below show
that the true real value of each power lies in an interval all of whose
rationals round (half to even, 4 significant digits) to the pinned
value, so any faithful computation of the power yields that value.
-/

theorem rndHalfEven_eq_of_bounds (y : ℚ) (n : ℤ)
    (h1 : (n : ℚ) - 1/2 < y) (h2 : y < n + 1/2) : rndHalfEven y = n := by
  have hfl : n - 1 ≤ ⌊y⌋ := by
    rw [Int.le_floor]
    push_cast
    linarith
  have hfu : ⌊y⌋ ≤ n := by
    have : ⌊y⌋ < n + 1 := by
      rw [Int.floor_lt]
      push_cast
      linarith
    omega
  have hcases : ⌊y⌋ = n - 1 ∨ ⌊y⌋ = n := by omega
  unfold rndHalfEven
  rcases hcases with hc | hc
  · have hygt : (1 : ℚ) / 2 < y - (⌊y⌋ : ℚ) := by
      rw [hc]
      push_cast
      linarith
    rw [if_neg (by linarith), if_pos hygt, hc]
    ring
  · have hylt : y - (⌊y⌋ : ℚ) < 1 / 2 := by
      rw [hc]
      linarith
    rw [if_pos hylt, hc]

theorem roundSig4_pin (x : ℚ) (m e : ℤ) (hx : x ≠ 0)
    (hlo : (10 : ℚ) ^ e ≤ |x|) (hhi : |x| < (10 : ℚ) ^ (e + 1))
    (h1 : (m : ℚ) - 1/2 < x / 10 ^ (e - 3)) (h2 : x / 10 ^ (e - 3) < m + 1/2) :
    roundSig4 x = (m : ℚ) * 10 ^ (e - 3) := by
  unfold roundSig4
  rw [if_neg hx, decExp_unique x hx e hlo hhi, rndHalfEven_eq_of_bounds _ m h1 h2]

theorem rpow_bounds (A B n k : ℕ) (r : ℝ) (hn : 0 < n) (hA : 0 < A)
    (hr : r * n = -(k : ℝ))
    (h1 : A ^ n * 10 ^ k < 100000 ^ n) (h2 : 100000 ^ n < B ^ n * 10 ^ k) :
    (A / 100000 : ℝ) < (10 : ℝ) ^ r ∧ (10 : ℝ) ^ r < B / 100000 := by
  have hy0 : (0 : ℝ) < (10 : ℝ) ^ r := Real.rpow_pos_of_pos (by norm_num) r
  have hyn : ((10 : ℝ) ^ r) ^ n = ((10 : ℝ) ^ (k : ℕ))⁻¹ := by
    rw [← Real.rpow_natCast ((10 : ℝ) ^ r) n, ← Real.rpow_mul (by norm_num : (0:ℝ) ≤ 10),
      hr, Real.rpow_neg (by norm_num : (0:ℝ) ≤ 10), Real.rpow_natCast]
  have hpk : (0 : ℝ) < (10 : ℝ) ^ (k : ℕ) := by positivity
  have hp5 : (0 : ℝ) < (100000 : ℝ) ^ (n : ℕ) := by positivity
  have h1R : (A : ℝ) ^ n * 10 ^ k < 100000 ^ n := by exact_mod_cast h1
  have h2R : (100000 : ℝ) ^ n < (B : ℝ) ^ n * 10 ^ k := by exact_mod_cast h2
  constructor
  · rw [← pow_lt_pow_iff_left₀ (by positivity) hy0.le hn.ne', div_pow, hyn,
      div_lt_iff₀ hp5, inv_mul_eq_div, lt_div_iff₀ hpk]
    exact h1R
  · rw [← pow_lt_pow_iff_left₀ hy0.le (by positivity) hn.ne', div_pow, hyn,
      inv_eq_one_div, div_lt_div_iff₀ hpk hp5, one_mul]
    exact h2R


/-- Justification of `Decimal(10) ** Decimal(str(-0.5)) = Decimal(str(0.3162))` under the precision-4 context, used by `claim_C6_rating_gap_raises`. -/
theorem pow10_at_neg_half :
    ((31615/100000 : ℝ) < (10 : ℝ) ^ (-(1 : ℝ)/2) ∧
      (10 : ℝ) ^ (-(1 : ℝ)/2) < 31625/100000) ∧
    ∀ x : ℚ, (31615/100000 : ℚ) < x → x < 31625/100000 →
      roundSig4 x = 1581/5000 := by
  constructor
  · have h := rpow_bounds 31615 31625 2 1 (-(1 : ℝ)/2) (by norm_num) (by norm_num)
      (by push_cast; ring) (by norm_num) (by norm_num)
    constructor
    · have := h.1
      norm_num at this ⊢
      linarith
    · have := h.2
      norm_num at this ⊢
      linarith
  · intro x hx1 hx2
    have hpin := roundSig4_pin x 3162 (-1) (by intro hx; rw [hx] at hx1; norm_num at hx1)
      (by rw [show ((10:ℚ)^(-1 : ℤ)) = 1/10 from by norm_num,
            abs_of_pos (by norm_num at hx1 ⊢; linarith : (0:ℚ) < x)]
          norm_num at hx1 ⊢
          linarith)
      (by rw [show ((-1 : ℤ) + 1) = 0 from by norm_num,
            abs_of_pos (by norm_num at hx1 ⊢; linarith : (0:ℚ) < x)]
          norm_num at hx2 ⊢
          linarith)
      (by rw [show ((10:ℚ)^((-1 : ℤ) - 3)) = 1/10000 from by norm_num, div_div_eq_mul_div, div_one]
          norm_num at hx1 ⊢
          linarith)
      (by rw [show ((10:ℚ)^((-1 : ℤ) - 3)) = 1/10000 from by norm_num, div_div_eq_mul_div, div_one]
          norm_num at hx2 ⊢
          linarith)
    rw [hpin]
    norm_num

/-- Justification of `Decimal(10) ** Decimal(str(-0.25)) = Decimal(str(0.5623))` under the precision-4 context, used by `claim_C2_pairing_cex`. -/
theorem pow10_at_neg_quarter :
    ((56225/100000 : ℝ) < (10 : ℝ) ^ (-(1 : ℝ)/4) ∧
      (10 : ℝ) ^ (-(1 : ℝ)/4) < 56235/100000) ∧
    ∀ x : ℚ, (56225/100000 : ℚ) < x → x < 56235/100000 →
      roundSig4 x = 5623/10000 := by
  constructor
  · have h := rpow_bounds 56225 56235 4 1 (-(1 : ℝ)/4) (by norm_num) (by norm_num)
      (by push_cast; ring) (by norm_num) (by norm_num)
    constructor
    · have := h.1
      norm_num at this ⊢
      linarith
    · have := h.2
      norm_num at this ⊢
      linarith
  · intro x hx1 hx2
    have hpin := roundSig4_pin x 5623 (-1) (by intro hx; rw [hx] at hx1; norm_num at hx1)
      (by rw [show ((10:ℚ)^(-1 : ℤ)) = 1/10 from by norm_num,
            abs_of_pos (by norm_num at hx1 ⊢; linarith : (0:ℚ) < x)]
          norm_num at hx1 ⊢
          linarith)
      (by rw [show ((-1 : ℤ) + 1) = 0 from by norm_num,
            abs_of_pos (by norm_num at hx1 ⊢; linarith : (0:ℚ) < x)]
          norm_num at hx2 ⊢
          linarith)
      (by rw [show ((10:ℚ)^((-1 : ℤ) - 3)) = 1/10000 from by norm_num, div_div_eq_mul_div, div_one]
          norm_num at hx1 ⊢
          linarith)
      (by rw [show ((10:ℚ)^((-1 : ℤ) - 3)) = 1/10000 from by norm_num, div_div_eq_mul_div, div_one]
          norm_num at hx2 ⊢
          linarith)
    rw [hpin]
    norm_num

/-- Justification of `Decimal(10) ** Decimal(str(-0.6172)) = Decimal(str(0.2414))` under the precision-4 context, used by `claim_C4_precision_scenario_raises`. -/
theorem pow10_at_neg_6172 :
    ((24135/100000 : ℝ) < (10 : ℝ) ^ (-(1543 : ℝ)/2500) ∧
      (10 : ℝ) ^ (-(1543 : ℝ)/2500) < 24145/100000) ∧
    ∀ x : ℚ, (24135/100000 : ℚ) < x → x < 24145/100000 →
      roundSig4 x = 1207/5000 := by
  constructor
  · have h := rpow_bounds 24135 24145 2500 1543 (-(1543 : ℝ)/2500) (by norm_num) (by norm_num)
      (by push_cast; ring) (by norm_num) (by norm_num)
    constructor
    · have := h.1
      norm_num at this ⊢
      linarith
    · have := h.2
      norm_num at this ⊢
      linarith
  · intro x hx1 hx2
    have hpin := roundSig4_pin x 2414 (-1) (by intro hx; rw [hx] at hx1; norm_num at hx1)
      (by rw [show ((10:ℚ)^(-1 : ℤ)) = 1/10 from by norm_num,
            abs_of_pos (by norm_num at hx1 ⊢; linarith : (0:ℚ) < x)]
          norm_num at hx1 ⊢
          linarith)
      (by rw [show ((-1 : ℤ) + 1) = 0 from by norm_num,
            abs_of_pos (by norm_num at hx1 ⊢; linarith : (0:ℚ) < x)]
          norm_num at hx2 ⊢
          linarith)
      (by rw [show ((10:ℚ)^((-1 : ℤ) - 3)) = 1/10000 from by norm_num, div_div_eq_mul_div, div_one]
          norm_num at hx1 ⊢
          linarith)
      (by rw [show ((10:ℚ)^((-1 : ℤ) - 3)) = 1/10000 from by norm_num, div_div_eq_mul_div, div_one]
          norm_num at hx2 ⊢
          linarith)
    rw [hpin]
    norm_num

/-- Justification of `Decimal(10) ** Decimal(str(-0.4445)) = Decimal(str(0.3593))` under the precision-4 context, used by `claim_C4_precision_scenario_raises`. -/
theorem pow10_at_neg_4445 :
    ((35925/100000 : ℝ) < (10 : ℝ) ^ (-(889 : ℝ)/2000) ∧
      (10 : ℝ) ^ (-(889 : ℝ)/2000) < 35935/100000) ∧
    ∀ x : ℚ, (35925/100000 : ℚ) < x → x < 35935/100000 →
      roundSig4 x = 3593/10000 := by
  constructor
  · have h := rpow_bounds 35925 35935 2000 889 (-(889 : ℝ)/2000) (by norm_num) (by norm_num)
      (by push_cast; ring) (by norm_num) (by norm_num)
    constructor
    · have := h.1
      norm_num at this ⊢
      linarith
    · have := h.2
      norm_num at this ⊢
      linarith
  · intro x hx1 hx2
    have hpin := roundSig4_pin x 3593 (-1) (by intro hx; rw [hx] at hx1; norm_num at hx1)
      (by rw [show ((10:ℚ)^(-1 : ℤ)) = 1/10 from by norm_num,
            abs_of_pos (by norm_num at hx1 ⊢; linarith : (0:ℚ) < x)]
          norm_num at hx1 ⊢
          linarith)
      (by rw [show ((-1 : ℤ) + 1) = 0 from by norm_num,
            abs_of_pos (by norm_num at hx1 ⊢; linarith : (0:ℚ) < x)]
          norm_num at hx2 ⊢
          linarith)
      (by rw [show ((10:ℚ)^((-1 : ℤ) - 3)) = 1/10000 from by norm_num, div_div_eq_mul_div, div_one]
          norm_num at hx1 ⊢
          linarith)
      (by rw [show ((10:ℚ)^((-1 : ℤ) - 3)) = 1/10000 from by norm_num, div_div_eq_mul_div, div_one]
          norm_num at hx2 ⊢
          linarith)
    rw [hpin]
    norm_num

end
